import Mathlib

/-!
Shallow embedding of the `entitypool` Rust crate (`src/lib.rs`).

The pool state is the four fields of `struct EntityPool`; Rust `Vec`s become
`List`s (push = append at the end, `Vec::pop` = take the last element), and the
machine integers `u32`/`u64` become `Nat` with explicit reduction modulo
`2^32` / `2^64` at the points where the source converts or wraps.

Operations are modelled with checked ("debug build") semantics: any execution
path on which the Rust code panics — an out-of-bounds `Vec` index (a panic in
every build) or a failing `debug_assert!` / arithmetic overflow (a panic in
debug builds, the builds the crate's contracts are specified against) — is
represented by `none`.  `EntityPool.len` is modelled by the value the source
returns (the dense-array length); the `debug_assert_eq!` inside it is modelled
separately by `EntityPool.len_checked`.
-/

/-- Number of values of a `u32`; `x % U32` models `as u32` truncation. -/
def U32 : Nat := 4294967296

/-- Number of values of a `u64`. -/
def U64 : Nat := 18446744073709551616

/-- Source: `const INVALID_ID: u64 = std::u64::MAX`. -/
def INVALID_ID : Nat := 18446744073709551615

/-- Source: `const INVALID_INDEX: u32 = std::u32::MAX`. -/
def INVALID_INDEX : Nat := 4294967295

/-- Source: `pub struct Entity(u64)` — the packed 64-bit identifier.
`val` carries the `u64`; theorems that take an arbitrary caller-supplied
entity carry the hypothesis `val < U64` expressing the Rust type bound. -/
structure Entity where
  val : Nat
deriving DecidableEq, Repr

/-- Source: `impl Default for Entity { fn default() -> Entity { Entity(INVALID_ID) } }`. -/
def Entity.default : Entity := ⟨INVALID_ID⟩

/-- Source: `Entity::from_key_and_gen`, `((key as u64) << 32) | (gen as u64)`. -/
def Entity.from_key_and_gen (key gen : Nat) : Entity :=
  ⟨(key % U32) * U32 + gen % U32⟩

/-- Source: `Entity::key`, `(self.0 >> 32) as u32`. -/
def Entity.key (e : Entity) : Nat := (e.val / U32) % U32

/-- Source: `Entity::gen`, `(self.0 & 0xFFFFFFFF) as u32`. -/
def Entity.gen (e : Entity) : Nat := e.val % U32

/-- Source: `pub struct EntityPool` with its four fields. -/
structure EntityPool where
  entities : List Entity
  entities_free : List Entity
  entity_index : List Nat
  next_entity_key : Nat
deriving DecidableEq, Repr

/-- Source: `EntityPool::with_capacity`.  Capacities only pre-allocate backing
storage, which the embedding does not track, so the arguments are unused. -/
def EntityPool.with_capacity (_create_capacity _return_capacity : Nat) : EntityPool :=
  { entities := [], entities_free := [], entity_index := [], next_entity_key := 0 }

/-- Source: `EntityPool::new`, defined as `with_capacity(0, 0)`. -/
def EntityPool.new : EntityPool := EntityPool.with_capacity 0 0

/-- Source: `Vec::swap_remove(index)` — overwrite position `index` with the
last element, then drop the last element.  Callers establish `i < l.length`
(Rust panics otherwise; the `none` propagation happens at the call sites). -/
def swapRemove (l : List Entity) (i : Nat) : List Entity :=
  match l.getLast? with
  | some x => (l.set i x).dropLast
  | none => l

/-- Second half of `EntityPool::create_entity`, after `(key, gen)` have been
chosen: build the entity, push it, and update or append the indirection entry.
`none` is the panic on `self.entity_index[key as usize] = index` when
`key > entity_index.len()` (unreachable from valid states). -/
def EntityPool.createWith (p : EntityPool) (key gen : Nat) :
    Option ((Nat × Entity) × EntityPool) :=
  let entity := Entity.from_key_and_gen key gen
  let index := p.entities.length % U32
  if key ≠ p.entity_index.length then
    if key < p.entity_index.length then
      some ((index, entity),
        { p with entities := p.entities ++ [entity],
                 entity_index := p.entity_index.set key index })
    else none
  else
    some ((index, entity),
      { p with entities := p.entities ++ [entity],
               entity_index := p.entity_index ++ [index] })

/-- Source: `EntityPool::create_entity`.  Pop the free stack for a recycled
key with its generation advanced by one (wrapping), otherwise mint the key
counter's value; the counter increment `key + 1` is a `u32` addition whose
overflow panics in debug builds (`none`). -/
def EntityPool.create_entity (p : EntityPool) : Option ((Nat × Entity) × EntityPool) :=
  match p.entities_free.getLast? with
  | some f =>
      EntityPool.createWith { p with entities_free := p.entities_free.dropLast }
        f.key ((f.gen + 1) % U32)
  | none =>
      if p.next_entity_key + 1 < U32 then
        EntityPool.createWith { p with next_entity_key := p.next_entity_key + 1 }
          p.next_entity_key 0
      else none

/-- Source: `EntityPool::return_entity`.  The `none` cases are, in order: the
`debug_assert!(entity != Entity::default())`, the `entity_index[key]` bound,
the `entities[index]` bound, the generation `debug_assert_eq!`, and the bound
on the indirection update for the swapped-in entity. -/
def EntityPool.return_entity (p : EntityPool) (entity : Entity) : Option EntityPool :=
  if entity = Entity.default then none
  else
    match p.entity_index[entity.key]? with
    | none => none
    | some index =>
      match p.entities[index]? with
      | none => none
      | some other =>
        if entity.gen = other.gen then
          match (swapRemove p.entities index)[index]? with
          | some e2 =>
              if e2.key < (p.entity_index.set entity.key INVALID_INDEX).length then
                some { p with entities := swapRemove p.entities index,
                              entities_free := p.entities_free ++ [entity],
                              entity_index := (p.entity_index.set entity.key INVALID_INDEX).set e2.key index }
              else none
          | none =>
              some { p with entities := swapRemove p.entities index,
                            entities_free := p.entities_free ++ [entity],
                            entity_index := p.entity_index.set entity.key INVALID_INDEX }
        else none

/-- Source: `EntityPool::index_of`.  The two `debug_assert`s and the two list
indexings are the `none` cases. -/
def EntityPool.index_of (p : EntityPool) (entity : Entity) : Option Nat :=
  if entity = Entity.default then none
  else
    match p.entity_index[entity.key]? with
    | none => none
    | some index =>
      match p.entities[index]? with
      | none => none
      | some other => if entity.gen = other.gen then some index else none

/-- Source: `EntityPool::entity_at`, `self.entities[index]` — `none` is the
out-of-bounds panic. -/
def EntityPool.entity_at (p : EntityPool) (index : Nat) : Option Entity :=
  p.entities[index]?

/-- Source: `EntityPool::is_alive`. -/
def EntityPool.is_alive (p : EntityPool) (entity : Entity) : Option Bool :=
  if entity = Entity.default then none
  else
    match p.entity_index[entity.key]? with
    | none => none
    | some index =>
      if index ≠ INVALID_INDEX then
        match p.entities[index]? with
        | none => none
        | some other => some (entity.key == other.key && entity.gen == other.gen)
      else some false

/-- Source: `EntityPool::len` — the value returned, `self.entities.len()`. -/
def EntityPool.len (p : EntityPool) : Nat := p.entities.length

/-- Source: `EntityPool::len` with its
`debug_assert_eq!(self.entities.len(), self.entity_index.len())`: in a debug
build the call panics (`none`) when the two lengths differ. -/
def EntityPool.len_checked (p : EntityPool) : Option Nat :=
  if p.entities.length = p.entity_index.length then some p.entities.length else none

/-- Source: `EntityPool::len_returned`, `self.entities_free.len()`. -/
def EntityPool.len_returned (p : EntityPool) : Nat := p.entities_free.length

/-- Source: `EntityPool::reset` — clear all three buffers, zero the key
counter (retained backing capacity is not part of the model). -/
def EntityPool.reset (_p : EntityPool) : EntityPool :=
  { entities := [], entities_free := [], entity_index := [], next_entity_key := 0 }

/-- Source: `EntityPool::iter`, an iterator over `self.entities`. -/
def EntityPool.iter (p : EntityPool) : List Entity := p.entities

/-- Iterated `create_entity`: the results of `n` successive calls together
with the final pool, `none` if any call panics. -/
def EntityPool.createN (p : EntityPool) : Nat → Option (List (Nat × Entity) × EntityPool)
  | 0 => some ([], p)
  | n + 1 =>
    match p.create_entity with
    | none => none
    | some ((i, e), q) =>
      match q.createN n with
      | none => none
      | some (rs, r) => some ((i, e) :: rs, r)

theorem Entity.key_from_key_and_gen (k g : Nat) :
    (Entity.from_key_and_gen k g).key = k % U32 := by
  simp only [Entity.from_key_and_gen, Entity.key, U32]
  omega

theorem Entity.gen_from_key_and_gen (k g : Nat) :
    (Entity.from_key_and_gen k g).gen = g % U32 := by
  simp only [Entity.from_key_and_gen, Entity.gen, U32]
  omega

theorem Entity.val_from_key_and_gen_lt (k g : Nat) :
    (Entity.from_key_and_gen k g).val < U64 := by
  simp only [Entity.from_key_and_gen, U32, U64]
  omega

theorem Entity.key_lt (e : Entity) : e.key < U32 := by
  simp only [Entity.key, U32]
  omega

theorem Entity.gen_lt (e : Entity) : e.gen < U32 := by
  simp only [Entity.gen, U32]
  omega

theorem Entity.eq_of_key_gen {a b : Entity} (ha : a.val < U64) (hb : b.val < U64)
    (hk : a.key = b.key) (hg : a.gen = b.gen) : a = b := by
  cases a with
  | mk va =>
    cases b with
    | mk vb =>
      simp only [Entity.key, Entity.gen, U32, U64] at ha hb hk hg ⊢
      congr 1
      omega

theorem Entity.default_key : Entity.default.key = U32 - 1 := by decide

theorem Entity.ne_default_of_key_lt {e : Entity} (h : e.key < U32 - 1) :
    e ≠ Entity.default := by
  intro he
  rw [he, Entity.default_key] at h
  omega

theorem length_swapRemove (l : List Entity) (i : Nat) (h : i < l.length) :
    (swapRemove l i).length = l.length - 1 := by
  rcases List.eq_nil_or_concat l with rfl | ⟨L, b, rfl⟩
  · simp at h
  · simp [swapRemove, List.concat_eq_append, List.getLast?_concat]

theorem getElem?_swapRemove (l : List Entity) (i j : Nat) (hi : i < l.length) :
    (swapRemove l i)[j]? =
      if j < l.length - 1 then
        (if j = i then l[l.length - 1]? else l[j]?)
      else none := by
  rcases List.eq_nil_or_concat l with rfl | ⟨L, b, rfl⟩
  · simp at hi
  · simp only [List.concat_eq_append] at hi ⊢
    simp only [swapRemove, List.getLast?_concat, List.dropLast_eq_take, List.length_set,
      List.length_append, List.length_singleton, Nat.add_sub_cancel, List.getElem?_take,
      List.getElem?_set]
    by_cases hj : j < L.length
    · simp only [if_pos hj]
      by_cases hij : j = i
      · subst hij
        have hi' : j < L.length + 1 := by omega
        rw [if_pos rfl, if_pos hi', if_pos rfl, List.getElem?_concat_length]
      · rw [if_neg (fun h => hij h.symm), if_neg hij]
    · simp only [if_neg hj]

theorem mem_of_mem_swapRemove {l : List Entity} {i : Nat} {x : Entity}
    (h : x ∈ swapRemove l i) : x ∈ l := by
  rcases List.eq_nil_or_concat l with rfl | ⟨L, b, rfl⟩
  · simp [swapRemove] at h
  · simp only [List.concat_eq_append] at h ⊢
    simp only [swapRemove, List.getLast?_concat] at h
    have h1 : x ∈ (L ++ [b]).set i b := List.dropLast_sublist _ |>.mem h
    rcases List.mem_or_eq_of_mem_set h1 with h2 | rfl
    · exact h2
    · simp


/-- The pool's representation invariant, maintained by `create_entity` and
`return_entity` from the empty pool:
the indirection table has one entry per issued key; every key is carried by
exactly one entity, either live or on the free stack; live entities and
indirection entries point at each other; free entities' keys are marked
invalid; all stored entities are well-formed `u64` values whose key was issued. -/
structure PoolInv (p : EntityPool) : Prop where
  idx_next : p.entity_index.length = p.next_entity_key
  next_lt : p.next_entity_key < U32
  len_eq : p.entities.length + p.entities_free.length = p.next_entity_key
  alive_wf : ∀ e ∈ p.entities, e.val < U64 ∧ e.key < p.next_entity_key
  free_wf : ∀ e ∈ p.entities_free, e.val < U64 ∧ e.key < p.next_entity_key
  indir_alive : ∀ (j : Nat) (x : Entity), p.entities[j]? = some x →
    p.entity_index[x.key]? = some j
  indir_dense : ∀ (k i : Nat), p.entity_index[k]? = some i → i ≠ INVALID_INDEX →
    ∃ x : Entity, p.entities[i]? = some x ∧ x.key = k
  free_dead : ∀ e ∈ p.entities_free, p.entity_index[e.key]? = some INVALID_INDEX
  free_nodup : (p.entities_free.map Entity.key).Nodup

theorem inv_new : PoolInv EntityPool.new := by
  refine ⟨rfl, by decide, rfl, ?_, ?_, ?_, ?_, ?_, ?_⟩ <;>
    simp [EntityPool.new, EntityPool.with_capacity]

/-- Any dense-array position is strictly below `INVALID_INDEX`. -/
theorem inv_pos_lt_invalid {p : EntityPool} (hp : PoolInv p) {j : Nat}
    (hj : j < p.entities.length) : j < INVALID_INDEX := by
  have h1 := hp.len_eq
  have h2 := hp.next_lt
  simp only [U32] at h2
  simp only [INVALID_INDEX]
  omega

/-- Distinct live positions hold entities with distinct keys. -/
theorem inv_keys_injective {p : EntityPool} (hp : PoolInv p) {j1 j2 : Nat} {x1 x2 : Entity}
    (h1 : p.entities[j1]? = some x1) (h2 : p.entities[j2]? = some x2)
    (hk : x1.key = x2.key) : j1 = j2 := by
  have e1 := hp.indir_alive j1 x1 h1
  have e2 := hp.indir_alive j2 x2 h2
  rw [hk] at e1
  rw [e1] at e2
  exact Option.some_injective _ e2

/-- The dense array of a valid pool has no duplicate entities. -/
theorem inv_entities_nodup {p : EntityPool} (hp : PoolInv p) : p.entities.Nodup := by
  rw [List.nodup_iff_getElem?_ne_getElem?]
  intro i j hij hjlen heq
  have hi : i < p.entities.length := lt_trans hij hjlen
  obtain ⟨x, hx⟩ : ∃ x, p.entities[i]? = some x := by
    rw [List.getElem?_eq_getElem hi]
    exact ⟨_, rfl⟩
  have hx2 : p.entities[j]? = some x := by
    rw [← heq]
    exact hx
  have := inv_keys_injective hp hx hx2 rfl
  omega

theorem mem_of_getElem_opt {α : Type} {l : List α} {i : Nat} {x : α}
    (h : l[i]? = some x) : x ∈ l := by
  rcases List.getElem?_eq_some.mp h with ⟨hi, rfl⟩
  exact List.getElem_mem hi

theorem getElem?_concat_cases {α : Type} {l : List α} {a : α} {j : Nat} {x : α}
    (h : (l ++ [a])[j]? = some x) :
    (j < l.length ∧ l[j]? = some x) ∨ (j = l.length ∧ x = a) := by
  rcases Nat.lt_trichotomy j l.length with hj | hj | hj
  · left
    refine ⟨hj, ?_⟩
    rwa [List.getElem?_append, if_pos hj] at h
  · right
    subst hj
    rw [List.getElem?_concat_length, Option.some_inj] at h
    exact ⟨rfl, h.symm⟩
  · exfalso
    rw [List.getElem?_eq_none (by simp only [List.length_append, List.length_singleton]; omega)] at h
    exact absurd h (by simp)

theorem create_entity_spec {p : EntityPool} (hp : PoolInv p) {r : Nat} {e : Entity}
    {q : EntityPool} (h : p.create_entity = some ((r, e), q)) :
    PoolInv q ∧ r = p.entities.length ∧ q.entities = p.entities ++ [e] ∧
    e.key < U32 - 1 ∧ e.val < U64 ∧ q.entities_free = p.entities_free.dropLast ∧
    p.next_entity_key ≤ q.next_entity_key := by
  have hlen : p.entity_index.length = p.next_entity_key := hp.idx_next
  have hnext : p.next_entity_key < U32 := hp.next_lt
  rcases List.eq_nil_or_concat p.entities_free with hfe | ⟨F, f, hfe⟩
  · -- fresh-key branch: the free stack is empty
    rw [EntityPool.create_entity, hfe] at h
    simp only [List.getLast?_nil] at h
    have hn : p.entities.length = p.next_entity_key := by
      have h3 := hp.len_eq
      rw [hfe] at h3
      simpa using h3
    split at h
    case isFalse => exact absurd h (by simp)
    case isTrue hlt =>
      simp only [EntityPool.createWith] at h
      rw [if_neg (not_not_intro hlen.symm)] at h
      rw [Option.some_inj, Prod.mk.injEq, Prod.mk.injEq] at h
      obtain ⟨⟨hr, hee⟩, hq⟩ := h
      subst hr
      subst hee
      subst hq
      have hmod : p.entities.length % U32 = p.entities.length :=
        Nat.mod_eq_of_lt (by omega)
      have hEkey : (Entity.from_key_and_gen p.next_entity_key 0).key = p.next_entity_key := by
        rw [Entity.key_from_key_and_gen]
        exact Nat.mod_eq_of_lt (by omega)
      have hEval : (Entity.from_key_and_gen p.next_entity_key 0).val < U64 :=
        Entity.val_from_key_and_gen_lt _ _
      refine ⟨⟨?_, ?_, ?_, ?_, ?_, ?_, ?_, ?_, ?_⟩, ?_, ?_, ?_, ?_, ?_, ?_⟩
      · simp [hlen]
      · simpa using hlt
      · simp [hfe, hn]
      · intro x hx
        rcases List.mem_append.mp hx with hx | hx
        · have h4 := hp.alive_wf x hx
          refine ⟨h4.1, ?_⟩
          show x.key < p.next_entity_key + 1
          omega
        · have hx' : x = Entity.from_key_and_gen p.next_entity_key 0 := by simpa using hx
          subst hx'
          refine ⟨hEval, ?_⟩
          show (Entity.from_key_and_gen p.next_entity_key 0).key < p.next_entity_key + 1
          rw [hEkey]
          omega
      · intro x hx
        simp only [hfe, List.not_mem_nil] at hx
      · intro j x hjx
        rcases getElem?_concat_cases hjx with ⟨hj, hx⟩ | ⟨hj, hx⟩
        · have hold := hp.indir_alive j x hx
          have hklt : x.key < p.entity_index.length := (List.getElem?_eq_some.mp hold).1
          show (p.entity_index ++ [p.entities.length % U32])[x.key]? = some j
          rw [List.getElem?_append, if_pos hklt]
          exact hold
        · subst hj
          subst hx
          show (p.entity_index ++ [p.entities.length % U32])[(Entity.from_key_and_gen p.next_entity_key 0).key]? = some p.entities.length
          rw [hEkey, ← hlen, List.getElem?_concat_length, Option.some_inj, hmod]
      · intro k i hki hiv
        have hki' : (p.entity_index ++ [p.entities.length % U32])[k]? = some i := hki
        rcases getElem?_concat_cases hki' with ⟨hk, hik⟩ | ⟨hk, hik⟩
        · obtain ⟨x, hx, hxk⟩ := hp.indir_dense k i hik hiv
          have hi : i < p.entities.length := (List.getElem?_eq_some.mp hx).1
          refine ⟨x, ?_, hxk⟩
          show (p.entities ++ [Entity.from_key_and_gen p.next_entity_key 0])[i]? = some x
          rw [List.getElem?_append, if_pos hi]
          exact hx
        · subst hk
          refine ⟨Entity.from_key_and_gen p.next_entity_key 0, ?_, by rw [hEkey, hlen]⟩
          show (p.entities ++ [Entity.from_key_and_gen p.next_entity_key 0])[i]? = some (Entity.from_key_and_gen p.next_entity_key 0)
          rw [hik, hmod, List.getElem?_concat_length]
      · intro x hx
        simp only [hfe, List.not_mem_nil] at hx
      · simp [hfe]
      · exact hmod
      · rfl
      · rw [hEkey]
        omega
      · exact hEval
      · simp [hfe]
      · show p.next_entity_key ≤ p.next_entity_key + 1
        omega
  · -- recycled-key branch: pop the last free entity
    rw [List.concat_eq_append] at hfe
    have hfmem : f ∈ p.entities_free := by
      rw [hfe]
      simp
    have hfwf := hp.free_wf f hfmem
    have hfdead := hp.free_dead f hfmem
    rw [EntityPool.create_entity, hfe] at h
    simp only [List.getLast?_concat, List.dropLast_concat] at h
    simp only [EntityPool.createWith] at h
    have hfk_lt : f.key < p.entity_index.length := by
      rw [hlen]
      exact hfwf.2
    rw [if_pos (show f.key ≠ p.entity_index.length by omega), if_pos hfk_lt] at h
    rw [Option.some_inj, Prod.mk.injEq, Prod.mk.injEq] at h
    obtain ⟨⟨hr, hee⟩, hq⟩ := h
    subst hr
    subst hee
    subst hq
    have hnlen : p.entities.length + (F.length + 1) = p.next_entity_key := by
      have h3 := hp.len_eq
      rw [hfe] at h3
      simpa using h3
    have hmod : p.entities.length % U32 = p.entities.length :=
      Nat.mod_eq_of_lt (by omega)
    have hEkey : (Entity.from_key_and_gen f.key ((f.gen + 1) % U32)).key = f.key := by
      rw [Entity.key_from_key_and_gen]
      exact Nat.mod_eq_of_lt (by omega)
    have hEval : (Entity.from_key_and_gen f.key ((f.gen + 1) % U32)).val < U64 :=
      Entity.val_from_key_and_gen_lt _ _
    have hfree_nodup : (List.map Entity.key F).Nodup ∧ f.key ∉ List.map Entity.key F := by
      have h5 := hp.free_nodup
      rw [hfe, List.map_append] at h5
      rw [List.nodup_append] at h5
      refine ⟨h5.1, ?_⟩
      intro hmem
      exact h5.2.2 hmem (by simp)
    refine ⟨⟨?_, ?_, ?_, ?_, ?_, ?_, ?_, ?_, ?_⟩, ?_, ?_, ?_, ?_, ?_, ?_⟩
    · simp [hlen]
    · exact hnext
    · simp only [List.length_append, List.length_singleton, List.length_set]
      omega
    · intro x hx
      rcases List.mem_append.mp hx with hx | hx
      · exact hp.alive_wf x hx
      · have hx' : x = Entity.from_key_and_gen f.key ((f.gen + 1) % U32) := by simpa using hx
        subst hx'
        refine ⟨hEval, ?_⟩
        show (Entity.from_key_and_gen f.key ((f.gen + 1) % U32)).key < p.next_entity_key
        rw [hEkey]
        exact hfwf.2
    · intro x hx
      have hx' : x ∈ F := hx
      apply hp.free_wf
      rw [hfe]
      exact List.mem_append_left _ hx'
    · intro j x hjx
      rcases getElem?_concat_cases hjx with ⟨hj, hx⟩ | ⟨hj, hx⟩
      · have hold := hp.indir_alive j x hx
        have hxkf : x.key ≠ f.key := by
          intro hxe
          rw [hxe, hfdead] at hold
          have := inv_pos_lt_invalid hp hj
          rw [Option.some_inj] at hold
          omega
        show (p.entity_index.set f.key (p.entities.length % U32))[x.key]? = some j
        rw [List.getElem?_set_ne (fun hc => hxkf hc.symm)]
        exact hold
      · subst hj
        subst hx
        show (p.entity_index.set f.key (p.entities.length % U32))[(Entity.from_key_and_gen f.key ((f.gen + 1) % U32)).key]? = some p.entities.length
        rw [hEkey, List.getElem?_set_self hfk_lt, Option.some_inj, hmod]
    · intro k i hki hiv
      by_cases hk : k = f.key
      · subst hk
        have hki' : (p.entity_index.set f.key (p.entities.length % U32))[f.key]? = some i := hki
        rw [List.getElem?_set_self hfk_lt, Option.some_inj] at hki'
        refine ⟨Entity.from_key_and_gen f.key ((f.gen + 1) % U32), ?_, hEkey⟩
        show (p.entities ++ [Entity.from_key_and_gen f.key ((f.gen + 1) % U32)])[i]? = some (Entity.from_key_and_gen f.key ((f.gen + 1) % U32))
        rw [← hki', hmod, List.getElem?_concat_length]
      · have hki' : p.entity_index[k]? = some i := by
          have h6 : (p.entity_index.set f.key (p.entities.length % U32))[k]? = some i := hki
          rwa [List.getElem?_set_ne (fun hc => hk hc.symm)] at h6
        obtain ⟨x, hx, hxk⟩ := hp.indir_dense k i hki' hiv
        have hi : i < p.entities.length := (List.getElem?_eq_some.mp hx).1
        refine ⟨x, ?_, hxk⟩
        show (p.entities ++ [Entity.from_key_and_gen f.key ((f.gen + 1) % U32)])[i]? = some x
        rw [List.getElem?_append, if_pos hi]
        exact hx
    · intro x hx
      have hx' : x ∈ F := hx
      have hxmem : x ∈ p.entities_free := by
        rw [hfe]
        exact List.mem_append_left _ hx'
      have hxdead := hp.free_dead x hxmem
      have hxkf : x.key ≠ f.key := by
        intro hc
        apply hfree_nodup.2
        rw [← hc]
        exact List.mem_map_of_mem Entity.key hx'
      show (p.entity_index.set f.key (p.entities.length % U32))[x.key]? = some INVALID_INDEX
      rw [List.getElem?_set_ne (fun hc => hxkf hc.symm)]
      exact hxdead
    · exact hfree_nodup.1
    · exact hmod
    · rfl
    · rw [hEkey]
      omega
    · exact hEval
    · simp [hfe]
    · show p.next_entity_key ≤ p.next_entity_key
      omega

theorem return_entity_spec {p : EntityPool} (hp : PoolInv p) {e : Entity} {q : EntityPool}
    (he : e.val < U64) (h : p.return_entity e = some q) :
    PoolInv q ∧ q.entities.length = p.entities.length - 1 ∧
    q.entities_free = p.entities_free ++ [e] ∧
    (∀ x ∈ q.entities, x ∈ p.entities) ∧ e ∈ p.entities ∧
    q.next_entity_key = p.next_entity_key ∧
    q.entity_index.length = p.entity_index.length := by
  have hlen : p.entity_index.length = p.next_entity_key := hp.idx_next
  rw [EntityPool.return_entity] at h
  split at h
  case isTrue => exact absurd h (by simp)
  case isFalse hdef =>
  split at h
  case h_1 => exact absurd h (by simp)
  case h_2 i hidx =>
  split at h
  case h_1 => exact absurd h (by simp)
  case h_2 other hoth =>
  split at h
  case isFalse => exact absurd h (by simp)
  case isTrue hgen =>
  have hin : i < p.entities.length := (List.getElem?_eq_some.mp hoth).1
  have hn1 : 1 ≤ p.entities.length := by omega
  have hiinv : i ≠ INVALID_INDEX := by
    have := inv_pos_lt_invalid hp hin
    omega
  have hokey : other.key = e.key := by
    obtain ⟨x, hx, hxk⟩ := hp.indir_dense e.key i hidx hiinv
    rw [hoth, Option.some_inj] at hx
    rw [← hx] at hxk
    exact hxk
  have hothmem : other ∈ p.entities := mem_of_getElem_opt hoth
  have hothwf := hp.alive_wf other hothmem
  have heo : e = other := Entity.eq_of_key_gen he hothwf.1 hokey.symm hgen
  have hoe : p.entities[i]? = some e := by
    rw [heo]
    exact hoth
  have hemem : e ∈ p.entities := by
    rw [heo]
    exact hothmem
  have hekey_lt : e.key < p.entity_index.length := (List.getElem?_eq_some.mp hidx).1
  have hekey_next : e.key < p.next_entity_key := by
    rw [← hokey]
    exact hothwf.2
  -- keys of other free entities differ from e.key
  have hfree_ne : ∀ x ∈ p.entities_free, x.key ≠ e.key := by
    intro x hx hc
    have hdead := hp.free_dead x hx
    rw [hc, hidx, Option.some_inj] at hdead
    exact hiinv hdead
  have hfree_nodup_e : e.key ∉ List.map Entity.key p.entities_free := by
    intro hc
    rcases List.mem_map.mp hc with ⟨x, hx, hxe⟩
    exact hfree_ne x hx hxe
  split at h
  case h_1 e2 hsw =>
    -- swapped case: the last entity e2 moves into position i
    split at h
    case isFalse => exact absurd h (by simp)
    case isTrue he2lt =>
    rw [Option.some_inj] at h
    subst h
    have hchar := getElem?_swapRemove p.entities i i hin
    rw [hsw, if_pos rfl] at hchar
    have hii : i < p.entities.length - 1 := by
      by_contra hc
      rw [if_neg hc] at hchar
      exact absurd hchar (by simp)
    rw [if_pos hii] at hchar
    have hlast : p.entities[p.entities.length - 1]? = some e2 := hchar.symm
    have he2mem : e2 ∈ p.entities := mem_of_getElem_opt hlast
    have he2wf := hp.alive_wf e2 he2mem
    have he2key_lt : e2.key < p.entity_index.length := by
      rw [hlen]
      exact he2wf.2
    have he2key_ne : e2.key ≠ e.key := by
      intro hc
      have := inv_keys_injective hp hlast hoe hc
      omega
    have he2entry := hp.indir_alive (p.entities.length - 1) e2 hlast
    refine ⟨⟨?_, ?_, ?_, ?_, ?_, ?_, ?_, ?_, ?_⟩, ?_, ?_, ?_, ?_, ?_, ?_⟩
    · simp [hlen]
    · exact hp.next_lt
    · have h3 := hp.len_eq
      have h4 : (swapRemove p.entities i).length = p.entities.length - 1 :=
        length_swapRemove p.entities i hin
      simp only [h4, List.length_append, List.length_singleton]
      omega
    · intro x hx
      exact hp.alive_wf x (mem_of_mem_swapRemove hx)
    · intro x hx
      rcases List.mem_append.mp hx with hx | hx
      · exact hp.free_wf x hx
      · have hx' : x = e := by simpa using hx
        subst hx'
        exact ⟨he, hekey_next⟩
    · intro j x hjx
      have hc2 := getElem?_swapRemove p.entities i j hin
      rw [hjx] at hc2
      by_cases hj : j < p.entities.length - 1
      · rw [if_pos hj] at hc2
        by_cases hji : j = i
        · rw [if_pos hji] at hc2
          rw [hlast, Option.some_inj] at hc2
          subst hc2
          subst hji
          show ((p.entity_index.set e.key INVALID_INDEX).set x.key j)[x.key]? = some j
          rw [List.getElem?_set_self (by simpa using he2key_lt)]
        · rw [if_neg hji] at hc2
          have hold := hp.indir_alive j x hc2.symm
          have hxk_ne_e2 : x.key ≠ e2.key := by
            intro hc
            have := inv_keys_injective hp hc2.symm hlast hc
            omega
          have hxk_ne_e : x.key ≠ e.key := by
            intro hc
            have := inv_keys_injective hp hc2.symm hoe hc
            exact hji this
          show ((p.entity_index.set e.key INVALID_INDEX).set e2.key i)[x.key]? = some j
          rw [List.getElem?_set_ne (fun hc => hxk_ne_e2 hc.symm),
            List.getElem?_set_ne (fun hc => hxk_ne_e hc.symm)]
          exact hold
      · rw [if_neg hj] at hc2
        exact absurd hc2 (by simp)
    · intro k i' hki hiv
      by_cases hk2 : k = e2.key
      · subst hk2
        have hki2 : ((p.entity_index.set e.key INVALID_INDEX).set e2.key i)[e2.key]? = some i' := hki
        rw [List.getElem?_set_self (by simpa using he2key_lt), Option.some_inj] at hki2
        subst hki2
        exact ⟨e2, hsw, rfl⟩
      · by_cases hke : k = e.key
        · subst hke
          have hki2 : ((p.entity_index.set e.key INVALID_INDEX).set e2.key i)[e.key]? = some i' := hki
          rw [List.getElem?_set_ne (fun hc => hk2 hc.symm),
            List.getElem?_set_self hekey_lt, Option.some_inj] at hki2
          exact absurd hki2.symm hiv
        · have hki2 : p.entity_index[k]? = some i' := by
            have h6 : ((p.entity_index.set e.key INVALID_INDEX).set e2.key i)[k]? = some i' := hki
            rwa [List.getElem?_set_ne (fun hc => hk2 hc.symm),
              List.getElem?_set_ne (fun hc => hke hc.symm)] at h6
          obtain ⟨x, hx, hxk⟩ := hp.indir_dense k i' hki2 hiv
          have hi' : i' < p.entities.length := (List.getElem?_eq_some.mp hx).1
          have hi'_ne_i : i' ≠ i := by
            intro hc
            rw [hc, hoe, Option.some_inj] at hx
            rw [← hx] at hxk
            exact hke hxk.symm
          have hi'_ne_last : i' ≠ p.entities.length - 1 := by
            intro hc
            rw [hc, hlast, Option.some_inj] at hx
            rw [← hx] at hxk
            exact hk2 hxk.symm
          refine ⟨x, ?_, hxk⟩
          rw [getElem?_swapRemove p.entities i i' hin, if_pos (by omega), if_neg hi'_ne_i]
          exact hx
    · intro x hx
      rcases List.mem_append.mp hx with hx | hx
      · have hxd := hp.free_dead x hx
        have hx_ne_e2 : x.key ≠ e2.key := by
          intro hc
          rw [hc, he2entry, Option.some_inj] at hxd
          have := inv_pos_lt_invalid hp (show p.entities.length - 1 < p.entities.length by omega)
          omega
        show ((p.entity_index.set e.key INVALID_INDEX).set e2.key i)[x.key]? = some INVALID_INDEX
        rw [List.getElem?_set_ne (fun hc => hx_ne_e2 hc.symm),
          List.getElem?_set_ne (fun hc => hfree_ne x hx hc.symm)]
        exact hxd
      · have hx' : x = e := by simpa using hx
        subst hx'
        show ((p.entity_index.set x.key INVALID_INDEX).set e2.key i)[x.key]? = some INVALID_INDEX
        rw [List.getElem?_set_ne (fun hc => he2key_ne hc),
          List.getElem?_set_self hekey_lt]
    · show (List.map Entity.key (p.entities_free ++ [e])).Nodup
      rw [List.map_append, List.nodup_append]
      refine ⟨hp.free_nodup, by simp, ?_⟩
      intro a ha hb
      have hae : a = e.key := by simpa using hb
      subst hae
      exact hfree_nodup_e ha
    · exact length_swapRemove p.entities i hin
    · rfl
    · intro x hx
      exact mem_of_mem_swapRemove hx
    · exact hemem
    · rfl
    · simp
  case h_2 hsw =>
    -- removed-last case: position i was the last
    rw [Option.some_inj] at h
    subst h
    have hchar := getElem?_swapRemove p.entities i i hin
    rw [hsw, if_pos rfl] at hchar
    have hii : ¬ i < p.entities.length - 1 := by
      intro hc
      rw [if_pos hc] at hchar
      have : p.entities[p.entities.length - 1]? = none := hchar.symm
      rw [List.getElem?_eq_none_iff] at this
      omega
    have hilast : i = p.entities.length - 1 := by omega
    refine ⟨⟨?_, ?_, ?_, ?_, ?_, ?_, ?_, ?_, ?_⟩, ?_, ?_, ?_, ?_, ?_, ?_⟩
    · simp [hlen]
    · exact hp.next_lt
    · have h3 := hp.len_eq
      have h4 : (swapRemove p.entities i).length = p.entities.length - 1 :=
        length_swapRemove p.entities i hin
      simp only [h4, List.length_append, List.length_singleton, List.length_set]
      omega
    · intro x hx
      exact hp.alive_wf x (mem_of_mem_swapRemove hx)
    · intro x hx
      rcases List.mem_append.mp hx with hx | hx
      · exact hp.free_wf x hx
      · have hx' : x = e := by simpa using hx
        subst hx'
        exact ⟨he, hekey_next⟩
    · intro j x hjx
      have hc2 := getElem?_swapRemove p.entities i j hin
      rw [hjx] at hc2
      by_cases hj : j < p.entities.length - 1
      · rw [if_pos hj] at hc2
        have hji : j ≠ i := by omega
        rw [if_neg hji] at hc2
        have hold := hp.indir_alive j x hc2.symm
        have hxk_ne_e : x.key ≠ e.key := by
          intro hc
          have := inv_keys_injective hp hc2.symm hoe hc
          exact hji this
        show (p.entity_index.set e.key INVALID_INDEX)[x.key]? = some j
        rw [List.getElem?_set_ne (fun hc => hxk_ne_e hc.symm)]
        exact hold
      · rw [if_neg hj] at hc2
        exact absurd hc2 (by simp)
    · intro k i' hki hiv
      by_cases hke : k = e.key
      · subst hke
        have hki2 : (p.entity_index.set e.key INVALID_INDEX)[e.key]? = some i' := hki
        rw [List.getElem?_set_self hekey_lt, Option.some_inj] at hki2
        exact absurd hki2.symm hiv
      · have hki2 : p.entity_index[k]? = some i' := by
          have h6 : (p.entity_index.set e.key INVALID_INDEX)[k]? = some i' := hki
          rwa [List.getElem?_set_ne (fun hc => hke hc.symm)] at h6
        obtain ⟨x, hx, hxk⟩ := hp.indir_dense k i' hki2 hiv
        have hi' : i' < p.entities.length := (List.getElem?_eq_some.mp hx).1
        have hi'_ne_i : i' ≠ i := by
          intro hc
          rw [hc, hoe, Option.some_inj] at hx
          rw [← hx] at hxk
          exact hke hxk.symm
        refine ⟨x, ?_, hxk⟩
        rw [getElem?_swapRemove p.entities i i' hin, if_pos (by omega), if_neg hi'_ne_i]
        exact hx
    · intro x hx
      rcases List.mem_append.mp hx with hx | hx
      · have hxd := hp.free_dead x hx
        show (p.entity_index.set e.key INVALID_INDEX)[x.key]? = some INVALID_INDEX
        rw [List.getElem?_set_ne (fun hc => hfree_ne x hx hc.symm)]
        exact hxd
      · have hx' : x = e := by simpa using hx
        subst hx'
        show (p.entity_index.set x.key INVALID_INDEX)[x.key]? = some INVALID_INDEX
        rw [List.getElem?_set_self hekey_lt]
    · show (List.map Entity.key (p.entities_free ++ [e])).Nodup
      rw [List.map_append, List.nodup_append]
      refine ⟨hp.free_nodup, by simp, ?_⟩
      intro a ha hb
      have hae : a = e.key := by simpa using hb
      subst hae
      exact hfree_nodup_e ha
    · exact length_swapRemove p.entities i hin
    · rfl
    · intro x hx
      exact mem_of_mem_swapRemove hx
    · exact hemem
    · rfl
    · simp

/-- Pool states reachable from `EntityPool::new` by completed (non-panicking)
`create_entity` and `return_entity` calls; returned arguments are `u64` values. -/
inductive Reachable : EntityPool → Prop where
  | new : Reachable EntityPool.new
  | create {p : EntityPool} {r : Nat} {e : Entity} {q : EntityPool} :
      Reachable p → p.create_entity = some ((r, e), q) → Reachable q
  | ret {p : EntityPool} {e : Entity} {q : EntityPool} :
      Reachable p → e.val < U64 → p.return_entity e = some q → Reachable q

theorem reachable_inv {p : EntityPool} (h : Reachable p) : PoolInv p := by
  induction h with
  | new => exact inv_new
  | create hp hc ih => exact (create_entity_spec ih hc).1
  | ret hp he hr ih => exact (return_entity_spec ih he hr).1

/-- Multi-step successor relation: `q` is obtained from `p` by a (possibly
empty) sequence of completed `create_entity` / `return_entity` calls. -/
inductive StepsFrom : EntityPool → EntityPool → Prop where
  | refl (p : EntityPool) : StepsFrom p p
  | create {p q : EntityPool} {r : Nat} {e : Entity} {s : EntityPool} :
      StepsFrom p q → q.create_entity = some ((r, e), s) → StepsFrom p s
  | ret {p q : EntityPool} {e : Entity} {s : EntityPool} :
      StepsFrom p q → e.val < U64 → q.return_entity e = some s → StepsFrom p s

theorem stepsFrom_inv {p q : EntityPool} (hp : PoolInv p) (h : StepsFrom p q) : PoolInv q := by
  induction h with
  | refl => exact hp
  | create hs hc ih => exact (create_entity_spec ih hc).1
  | ret hs he hr ih => exact (return_entity_spec ih he hr).1

theorem is_alive_eq_of_entry {p : EntityPool} {e : Entity} (hne : e ≠ Entity.default)
    {i : Nat} (hentry : p.entity_index[e.key]? = some i) (hiv : i ≠ INVALID_INDEX)
    {x : Entity} (hx : p.entities[i]? = some x) :
    p.is_alive e = some (e.key == x.key && e.gen == x.gen) := by
  rw [EntityPool.is_alive, if_neg hne]
  split
  case h_1 heq =>
    rw [hentry] at heq
    exact Option.noConfusion heq
  case h_2 i' heq =>
    rw [hentry, Option.some_inj] at heq
    subst heq
    rw [if_pos hiv]
    split
    case h_1 heq2 =>
      rw [hx] at heq2
      exact Option.noConfusion heq2
    case h_2 other heq2 =>
      rw [hx, Option.some_inj] at heq2
      subst heq2
      rfl

theorem is_alive_eq_of_invalid {p : EntityPool} {e : Entity} (hne : e ≠ Entity.default)
    (hentry : p.entity_index[e.key]? = some INVALID_INDEX) :
    p.is_alive e = some false := by
  rw [EntityPool.is_alive, if_neg hne]
  split
  case h_1 heq =>
    rw [hentry] at heq
    exact Option.noConfusion heq
  case h_2 i' heq =>
    rw [hentry, Option.some_inj] at heq
    subst heq
    rw [if_neg (not_not_intro rfl)]

/-- In a valid pool, every entity of the dense array is reported alive. -/
theorem alive_of_dense {p : EntityPool} (hp : PoolInv p) {j : Nat} {x : Entity}
    (hx : p.entities[j]? = some x) : p.is_alive x = some true := by
  have hwf := hp.alive_wf x (mem_of_getElem_opt hx)
  have hne : x ≠ Entity.default := by
    apply Entity.ne_default_of_key_lt
    have := hp.next_lt
    omega
  have hentry := hp.indir_alive j x hx
  have hj : j < p.entities.length := (List.getElem?_eq_some.mp hx).1
  have hjinv : j ≠ INVALID_INDEX := by
    have := inv_pos_lt_invalid hp hj
    omega
  rw [is_alive_eq_of_entry hne hentry hjinv hx]
  simp

/-- In a valid pool, every entity on the free stack is reported dead. -/
theorem dead_of_free {p : EntityPool} (hp : PoolInv p) {e : Entity}
    (hmem : e ∈ p.entities_free) : p.is_alive e = some false := by
  have hwf := hp.free_wf e hmem
  have hne : e ≠ Entity.default := by
    apply Entity.ne_default_of_key_lt
    have := hp.next_lt
    omega
  exact is_alive_eq_of_invalid hne (hp.free_dead e hmem)

/-- A `u64` entity reported alive by a valid pool sits in the dense array at
the position its indirection entry holds. -/
theorem alive_elim {p : EntityPool} (hp : PoolInv p) {e : Entity} (he : e.val < U64)
    (ha : p.is_alive e = some true) :
    ∃ i, p.entity_index[e.key]? = some i ∧ p.entities[i]? = some e := by
  rw [EntityPool.is_alive] at ha
  split at ha
  case isTrue => exact absurd ha (by simp)
  case isFalse hne =>
  split at ha
  case h_1 => exact absurd ha (by simp)
  case h_2 i hentry =>
  split at ha
  case isFalse => exact absurd ha (by simp)
  case isTrue hiv =>
  split at ha
  case h_1 => exact absurd ha (by simp)
  case h_2 other hoth =>
  rw [Option.some_inj, Bool.and_eq_true, beq_iff_eq, beq_iff_eq] at ha
  have hwf := hp.alive_wf other (mem_of_getElem_opt hoth)
  have heo : e = other := Entity.eq_of_key_gen he hwf.1 ha.1 ha.2
  refine ⟨i, hentry, ?_⟩
  rw [heo]
  exact hoth

theorem index_of_eq {p : EntityPool} {e : Entity} (hne : e ≠ Entity.default)
    {i : Nat} (hentry : p.entity_index[e.key]? = some i)
    {x : Entity} (hx : p.entities[i]? = some x) (hg : e.gen = x.gen) :
    p.index_of e = some i := by
  rw [EntityPool.index_of, if_neg hne]
  split
  case h_1 heq =>
    rw [hentry] at heq
    exact Option.noConfusion heq
  case h_2 i' heq =>
    rw [hentry, Option.some_inj] at heq
    subst heq
    split
    case h_1 heq2 =>
      rw [hx] at heq2
      exact Option.noConfusion heq2
    case h_2 other heq2 =>
      rw [hx, Option.some_inj] at heq2
      subst heq2
      rw [if_pos hg]

/-- `create_entity` completes whenever one more live entity still fits in a
`u32` position (it always completes when the free stack is non-empty). -/
theorem create_entity_some {p : EntityPool} (hp : PoolInv p)
    (h : p.entities.length + 1 < U32) :
    ∃ r e q, p.create_entity = some ((r, e), q) := by
  have hlen : p.entity_index.length = p.next_entity_key := hp.idx_next
  rcases List.eq_nil_or_concat p.entities_free with hfe | ⟨F, f, hfe⟩
  · have hn : p.entities.length = p.next_entity_key := by
      have h3 := hp.len_eq
      rw [hfe] at h3
      simpa using h3
    rw [EntityPool.create_entity, hfe]
    simp only [List.getLast?_nil]
    rw [if_pos (by omega)]
    simp only [EntityPool.createWith]
    rw [if_neg (not_not_intro hlen.symm)]
    exact ⟨_, _, _, rfl⟩
  · rw [List.concat_eq_append] at hfe
    have hfmem : f ∈ p.entities_free := by
      rw [hfe]
      simp
    have hfk : f.key < p.entity_index.length := by
      rw [hlen]
      exact (hp.free_wf f hfmem).2
    rw [EntityPool.create_entity, hfe]
    simp only [List.getLast?_concat, List.dropLast_concat]
    simp only [EntityPool.createWith]
    rw [if_pos (show f.key ≠ p.entity_index.length by omega), if_pos hfk]
    exact ⟨_, _, _, rfl⟩

/-- `createN` unrolled from the back: `n + 1` calls are `n` calls followed by
one more. -/
theorem createN_succ_back (p : EntityPool) (n : Nat) :
    p.createN (n + 1) =
      match p.createN n with
      | none => none
      | some (rs, q) =>
        match q.create_entity with
        | none => none
        | some ((i, e), r) => some (rs ++ [(i, e)], r) := by
  induction n generalizing p with
  | zero =>
    cases hc : p.create_entity with
    | none => simp [EntityPool.createN, hc]
    | some v =>
      obtain ⟨⟨i, e⟩, q⟩ := v
      simp [EntityPool.createN, hc]
  | succ n ih =>
    have hL : p.createN (n + 1 + 1) =
        match p.create_entity with
        | none => none
        | some ((i, e), q) =>
          match q.createN (n + 1) with
          | none => none
          | some (rs, r) => some ((i, e) :: rs, r) := rfl
    rw [hL]
    cases hc : p.create_entity with
    | none => simp [EntityPool.createN, hc]
    | some v =>
      obtain ⟨⟨i, e⟩, q⟩ := v
      show (match q.createN (n + 1) with
          | none => none
          | some (rs, r) => some ((i, e) :: rs, r)) =
        match p.createN (n + 1) with
        | none => none
        | some (rs, q) =>
          match q.create_entity with
          | none => none
          | some ((i, e), r) => some (rs ++ [(i, e)], r)
      rw [ih q]
      have hPn1 : p.createN (n + 1) =
          match q.createN n with
          | none => none
          | some (rs, r) => some ((i, e) :: rs, r) := by
        simp [EntityPool.createN, hc]
      rw [hPn1]
      cases hc2 : q.createN n with
      | none => rfl
      | some v2 =>
        obtain ⟨rs, r⟩ := v2
        cases hc3 : r.create_entity with
        | none => simp [hc3]
        | some v3 =>
          obtain ⟨⟨i3, e3⟩, r3⟩ := v3
          simp [hc3]

/-- Specification of `n` successive `create_entity` calls on a valid pool:
they all complete while positions fit in `u32`, preserve the invariant, append
the created entities to the dense array, and report the consecutive positions
`len, len+1, …`. -/
theorem createN_spec {p : EntityPool} (hp : PoolInv p) {n : Nat}
    (h : p.entities.length + n < U32) :
    ∃ rs q, p.createN n = some (rs, q) ∧ PoolInv q ∧
      q.entities = p.entities ++ rs.map Prod.snd ∧
      rs.map Prod.fst = List.range' p.entities.length n := by
  induction n generalizing p with
  | zero => exact ⟨[], p, rfl, hp, by simp, by simp [List.range']⟩
  | succ n ih =>
    obtain ⟨r, e, q, hc⟩ := create_entity_some hp (by omega)
    obtain ⟨hq, hr, hents, -, -, -, -⟩ := create_entity_spec hp hc
    have hqlen : q.entities.length = p.entities.length + 1 := by
      rw [hents]
      simp
    obtain ⟨rs', q', hcn, hinv, hents', hpos'⟩ := ih hq (by omega)
    refine ⟨(r, e) :: rs', q', ?_, hinv, ?_, ?_⟩
    · show (match p.create_entity with
        | none => none
        | some ((i, e), q) =>
          match q.createN n with
          | none => none
          | some (rs, r) => some ((i, e) :: rs, r)) = some ((r, e) :: rs', q')
      rw [hc]
      show (match q.createN n with
        | none => none
        | some (rs, r2) => some ((r, e) :: rs, r2)) = some ((r, e) :: rs', q')
      rw [hcn]
    · rw [hents', hents]
      simp
    · simp only [List.map_cons, hpos', hqlen, hr]
      rw [List.range'_succ]

/-- The pool obtained from `EntityPool::new` by `k` `create_entity` calls:
keys `0..k-1`, all generation `0`, all live, indirection entry `i ↦ i`. -/
def poolAfter (k : Nat) : EntityPool :=
  { entities := (List.range k).map (fun i => Entity.from_key_and_gen i 0),
    entities_free := [],
    entity_index := List.range k,
    next_entity_key := k }

theorem createN_new_closed {k : Nat} (hk : k ≤ U32 - 1) :
    EntityPool.new.createN k =
      some ((List.range k).map (fun i => (i, Entity.from_key_and_gen i 0)), poolAfter k) := by
  induction k with
  | zero => rfl
  | succ k ih =>
    have hk1 : k + 1 < U32 := by
      simp only [U32] at hk ⊢
      omega
    have hc : (poolAfter k).create_entity =
        some ((k, Entity.from_key_and_gen k 0), poolAfter (k + 1)) := by
      rw [EntityPool.create_entity]
      simp only [poolAfter, List.getLast?_nil]
      rw [if_pos hk1]
      simp only [EntityPool.createWith, List.length_map, List.length_range]
      rw [if_neg (not_not_intro rfl)]
      rw [Option.some_inj, Prod.mk.injEq, Prod.mk.injEq]
      have hmodk : k % U32 = k := Nat.mod_eq_of_lt (by omega)
      refine ⟨⟨hmodk, rfl⟩, ?_⟩
      simp only [poolAfter, List.range_succ, List.map_append, List.map_cons, List.map_nil, hmodk]
    rw [createN_succ_back, ih (by omega)]
    show (match (poolAfter k).create_entity with
      | none => none
      | some ((i, e), r) =>
        some ((List.range k).map (fun i => (i, Entity.from_key_and_gen i 0)) ++ [(i, e)], r)) = _
    rw [hc]
    show some ((List.range k).map (fun i => (i, Entity.from_key_and_gen i 0)) ++
        [(k, Entity.from_key_and_gen k 0)], poolAfter (k + 1)) = _
    rw [Option.some_inj, Prod.mk.injEq]
    refine ⟨?_, rfl⟩
    rw [List.range_succ, List.map_append, List.map_cons, List.map_nil]

/-- The `2^32`-nd fresh `create_entity` call cannot complete: issuing key
`2^32 - 1` would overflow the `u32` key counter (a debug-build panic; a release
build wraps the counter and goes on to alias key `0`). -/
theorem createN_new_overflow : EntityPool.new.createN 4294967296 = none := by
  have h := @createN_new_closed (U32 - 1) (Nat.le_refl _)
  have hU : (4294967296 : Nat) = (U32 - 1) + 1 := by
    have hU32 : U32 = 4294967296 := rfl
    omega
  rw [hU, createN_succ_back, h]
  have hc : (poolAfter (U32 - 1)).create_entity = none := by
    rw [EntityPool.create_entity]
    have hfree : (poolAfter (U32 - 1)).entities_free.getLast? = none := rfl
    rw [hfree]
    show (if (poolAfter (U32 - 1)).next_entity_key + 1 < U32 then _ else none) = none
    rw [if_neg (by have hU32 : U32 = 4294967296 := rfl; simp only [poolAfter]; omega)]
  show (match (poolAfter (U32 - 1)).create_entity with
    | none => none
    | some ((i, e), r) =>
      some ((List.range (U32 - 1)).map (fun i => (i, Entity.from_key_and_gen i 0)) ++ [(i, e)], r)) = none
  rw [hc]

theorem getElem_opt_of_mem {α : Type} {l : List α} {x : α} (h : x ∈ l) :
    ∃ i : Nat, l[i]? = some x := by
  obtain ⟨n, hn, he⟩ := List.getElem_of_mem h
  refine ⟨n, ?_⟩
  rw [List.getElem?_eq_getElem hn, he]

theorem succ_mod_ne {g : Nat} (hg : g < U32) : (g + 1) % U32 ≠ g := by
  have hU : 1 < U32 := by decide
  rcases Nat.lt_or_ge (g + 1) U32 with hlt | hge
  · rw [Nat.mod_eq_of_lt hlt]
    omega
  · have h1 : g + 1 = U32 := by omega
    rw [h1, Nat.mod_self]
    omega

/-- `return_entity` completes on every entity the pool reports alive. -/
theorem return_entity_some {p : EntityPool} (hp : PoolInv p) {e : Entity}
    (he : e.val < U64) (ha : p.is_alive e = some true) :
    ∃ q, p.return_entity e = some q := by
  obtain ⟨i, hentry, hx⟩ := alive_elim hp he ha
  have hne : e ≠ Entity.default := by
    apply Entity.ne_default_of_key_lt
    have := (hp.alive_wf e (mem_of_getElem_opt hx)).2
    have := hp.next_lt
    omega
  have hsome : (p.return_entity e).isSome = true := by
    rw [EntityPool.return_entity, if_neg hne]
    split
    case h_1 heq =>
      rw [hentry] at heq
      exact Option.noConfusion heq
    case h_2 i' heq =>
      rw [hentry, Option.some_inj] at heq
      subst heq
      split
      case h_1 heq2 =>
        rw [hx] at heq2
        exact Option.noConfusion heq2
      case h_2 other heq2 =>
        rw [hx, Option.some_inj] at heq2
        subst heq2
        rw [if_pos rfl]
        split
        case h_1 e2 heq3 =>
          rw [if_pos ?_]
          · rfl
          · have he2mem : e2 ∈ p.entities := mem_of_mem_swapRemove (mem_of_getElem_opt heq3)
            rw [List.length_set, hp.idx_next]
            exact (hp.alive_wf e2 he2mem).2
        case h_2 => rfl
  obtain ⟨q, hq⟩ := Option.isSome_iff_exists.mp hsome
  exact ⟨q, hq⟩

/-- C1: Indirection consistency invariant — in every pool state reachable by
any sequence of `create_entity` and `return_entity` calls from a new pool, and
for every (`u64`) entity `e` that is alive in that state, `index_of e` returns
a position `p` with `p < len()` and `entity_at p == e`. -/
theorem indirection_consistency {p : EntityPool} {e : Entity}
    (hr : Reachable p) (he : e.val < U64) (ha : p.is_alive e = some true) :
    ∃ i, p.index_of e = some i ∧ i < p.len ∧ p.entity_at i = some e := by
  have hp := reachable_inv hr
  obtain ⟨i, hentry, hx⟩ := alive_elim hp he ha
  have hne : e ≠ Entity.default := by
    apply Entity.ne_default_of_key_lt
    have h1 := (hp.alive_wf e (mem_of_getElem_opt hx)).2
    have h2 := hp.next_lt
    omega
  exact ⟨i, index_of_eq hne hentry hx rfl, (List.getElem?_eq_some.mp hx).1, hx⟩

theorem indirection_consistency_witness :
    ∃ i, EntityPool.index_of ⟨[⟨0⟩], [], [0], 1⟩ ⟨0⟩ = some i ∧
      i < EntityPool.len ⟨[⟨0⟩], [], [0], 1⟩ ∧
      EntityPool.entity_at ⟨[⟨0⟩], [], [0], 1⟩ i = some ⟨0⟩ := by
  have h1 : EntityPool.new.create_entity =
      some ((0, ⟨0⟩), ⟨[⟨0⟩], [], [0], 1⟩) := by decide
  exact indirection_consistency (Reachable.create Reachable.new h1) (by decide) (by decide)

/-- C2: Swap-compaction correctness — releasing a live entity from a reachable
pool of `n` live entities succeeds, leaves a dense array of length `n - 1`,
every remaining live entity reports alive, and every remaining live entity `x`
satisfies `entity_at (index_of x) == x`. -/
theorem swap_compaction {p : EntityPool} {e : Entity}
    (hr : Reachable p) (he : e.val < U64) (ha : p.is_alive e = some true) :
    ∃ q, p.return_entity e = some q ∧ q.len = p.len - 1 ∧
      (∀ x ∈ q.entities, q.is_alive x = some true) ∧
      (∀ x ∈ q.entities, ∃ i, q.index_of x = some i ∧ q.entity_at i = some x) := by
  have hp := reachable_inv hr
  obtain ⟨q, hq⟩ := return_entity_some hp he ha
  obtain ⟨hqinv, hlen, -, -, -, -, -⟩ := return_entity_spec hp he hq
  refine ⟨q, hq, hlen, ?_, ?_⟩
  · intro x hx
    obtain ⟨j, hj⟩ := getElem_opt_of_mem hx
    exact alive_of_dense hqinv hj
  · intro x hx
    obtain ⟨j, hj⟩ := getElem_opt_of_mem hx
    have hentry := hqinv.indir_alive j x hj
    have hne : x ≠ Entity.default := by
      apply Entity.ne_default_of_key_lt
      have h1 := (hqinv.alive_wf x hx).2
      have h2 := hqinv.next_lt
      omega
    exact ⟨j, index_of_eq hne hentry hj rfl, hj⟩

theorem swap_compaction_witness :
    ∃ q, EntityPool.return_entity ⟨[⟨0⟩, ⟨4294967296⟩], [], [0, 1], 2⟩ ⟨0⟩ = some q ∧
      q.len = EntityPool.len ⟨[⟨0⟩, ⟨4294967296⟩], [], [0, 1], 2⟩ - 1 ∧
      (∀ x ∈ q.entities, q.is_alive x = some true) ∧
      (∀ x ∈ q.entities, ∃ i, q.index_of x = some i ∧ q.entity_at i = some x) := by
  have h1 : EntityPool.new.create_entity =
      some ((0, ⟨0⟩), ⟨[⟨0⟩], [], [0], 1⟩) := by decide
  have h2 : EntityPool.create_entity ⟨[⟨0⟩], [], [0], 1⟩ =
      some ((1, ⟨4294967296⟩), ⟨[⟨0⟩, ⟨4294967296⟩], [], [0, 1], 2⟩) := by decide
  exact swap_compaction (Reachable.create (Reachable.create Reachable.new h1) h2)
    (by decide) (by decide)

/-- C8: Allocation never yields the sentinel — in every reachable pool state,
the entity returned by `create_entity` is never the reserved all-bits-set
sentinel (`Entity::default`). -/
theorem create_never_sentinel {p : EntityPool} {r : Nat} {e : Entity} {q : EntityPool}
    (hr : Reachable p) (hc : p.create_entity = some ((r, e), q)) :
    e ≠ Entity.default := by
  have hp := reachable_inv hr
  obtain ⟨-, -, -, hklt, -, -, -⟩ := create_entity_spec hp hc
  exact Entity.ne_default_of_key_lt hklt

theorem create_never_sentinel_witness : (⟨0⟩ : Entity) ≠ Entity.default := by
  have h1 : EntityPool.new.create_entity =
      some ((0, ⟨0⟩), ⟨[⟨0⟩], [], [0], 1⟩) := by decide
  exact create_never_sentinel Reachable.new h1

/-- C9: `entity_at` fails (panics, modelled as `none`) if and only if the
position is at least `len()`; on any position below `len()` it returns the
entity stored at that dense-array position (the embedding renders `entity_at`
as a pure function of the pool, so it cannot modify it). -/
theorem entity_at_iff_bounds (p : EntityPool) (i : Nat) :
    (p.entity_at i = none ↔ p.len ≤ i) ∧
    ∀ (h : i < p.len), p.entity_at i = some (p.entities.get ⟨i, h⟩) := by
  constructor
  · exact List.getElem?_eq_none_iff
  · intro h
    rw [EntityPool.entity_at, List.getElem?_eq_getElem h]
    rfl

theorem entity_at_iff_bounds_witness :
    ((EntityPool.entity_at ⟨[⟨0⟩, ⟨4294967296⟩], [], [0, 1], 2⟩ 1 = none ↔
        EntityPool.len ⟨[⟨0⟩, ⟨4294967296⟩], [], [0, 1], 2⟩ ≤ 1) ∧
      ∀ (h : 1 < EntityPool.len ⟨[⟨0⟩, ⟨4294967296⟩], [], [0, 1], 2⟩),
        EntityPool.entity_at ⟨[⟨0⟩, ⟨4294967296⟩], [], [0, 1], 2⟩ 1 =
          some ((⟨[⟨0⟩, ⟨4294967296⟩], [], [0, 1], 2⟩ : EntityPool).entities.get ⟨1, h⟩)) :=
  entity_at_iff_bounds ⟨[⟨0⟩, ⟨4294967296⟩], [], [0, 1], 2⟩ 1

/-- C3 (evaluation at the failing input): the state reached from a new pool by
one `create_entity` and one `return_entity` is reachable, yet its dense array
has length `0` while its indirection table has length `1`, so the
`debug_assert_eq!(self.entities.len(), self.entity_index.len())` inside
`len()` fires there (`len_checked` panics, i.e. is `none`) — refuting the
claim that the two lengths agree in every reachable state. -/
theorem len_assert_fires_after_return :
    Reachable (⟨[], [⟨0⟩], [4294967295], 1⟩ : EntityPool) ∧
    (⟨[], [⟨0⟩], [4294967295], 1⟩ : EntityPool).entities.length = 0 ∧
    (⟨[], [⟨0⟩], [4294967295], 1⟩ : EntityPool).entity_index.length = 1 ∧
    EntityPool.len_checked ⟨[], [⟨0⟩], [4294967295], 1⟩ = none := by
  refine ⟨?_, by decide, by decide, by decide⟩
  have h1 : EntityPool.new.create_entity =
      some ((0, ⟨0⟩), ⟨[⟨0⟩], [], [0], 1⟩) := by decide
  have h2 : EntityPool.return_entity ⟨[⟨0⟩], [], [0], 1⟩ ⟨0⟩ =
      some ⟨[], [⟨0⟩], [4294967295], 1⟩ := by decide
  exact Reachable.ret (Reachable.create Reachable.new h1) (by decide) h2

/-- C4 (amended): for every `n < 2^32`, performing `n` `create_entity` calls
on a reachable pool with `len() = 0` and no intervening `return_entity` calls
succeeds, returns pairwise-distinct entities, and reports positions exactly
`0, 1, …, n-1` in call order.  (For `n = 2^32` the calls cannot all complete:
see the counterexample theorem.) -/
theorem fresh_creates_unique {p : EntityPool} {n : Nat}
    (hr : Reachable p) (hlen : p.len = 0) (hn : n < U32) :
    ∃ rs q, p.createN n = some (rs, q) ∧
      rs.map Prod.fst = List.range n ∧ (rs.map Prod.snd).Nodup := by
  have hp := reachable_inv hr
  have hlen' : p.entities.length = 0 := hlen
  obtain ⟨rs, q, hcn, hq, hents, hpos⟩ :=
    createN_spec hp (show p.entities.length + n < U32 by omega)
  refine ⟨rs, q, hcn, ?_, ?_⟩
  · rw [hpos, hlen', List.range_eq_range']
  · have hnodup := inv_entities_nodup hq
    rw [hents] at hnodup
    exact (List.nodup_append.mp hnodup).2.1

theorem fresh_creates_unique_witness :
    ∃ rs q, EntityPool.new.createN 3 = some (rs, q) ∧
      rs.map Prod.fst = List.range 3 ∧ (rs.map Prod.snd).Nodup :=
  fresh_creates_unique Reachable.new (by decide) (by decide)

/-- C4 (counterexample to the unbounded claim): `2^32` fresh `create_entity`
calls on a new pool cannot all complete — the `2^32`-nd call overflows the
`u32` key counter (`self.next_entity_key = key + 1`), a debug-build panic, so
no such sequence of returned entities exists (in a release build the counter
wraps instead and the next creation aliases key `0`, breaking uniqueness). -/
theorem fresh_creates_overflow_at_u32 : EntityPool.new.createN 4294967296 = none :=
  createN_new_overflow

/-- C5: Recycle changes identity — from any reachable state, if
`create_entity` returns `e`, then `return_entity e` succeeds, and the next
`create_entity` returns an entity `e2` with `e2 ≠ e`, the same key as `e`, and
generation `(e.gen + 1) % 2^32`. -/
theorem recycle_changes_identity {p : EntityPool} {r : Nat} {e : Entity} {q : EntityPool}
    (hr : Reachable p) (hc : p.create_entity = some ((r, e), q)) :
    ∃ s, q.return_entity e = some s ∧
      ∃ r2 e2 t, s.create_entity = some ((r2, e2), t) ∧
        e2 ≠ e ∧ e2.key = e.key ∧ e2.gen = (e.gen + 1) % U32 := by
  have hp := reachable_inv hr
  obtain ⟨hq, -, hents, hklt, hval, -, -⟩ := create_entity_spec hp hc
  have hx : q.entities[p.entities.length]? = some e := by
    rw [hents]
    exact List.getElem?_concat_length _ _
  have ha : q.is_alive e = some true := alive_of_dense hq hx
  obtain ⟨s, hs⟩ := return_entity_some hq hval ha
  obtain ⟨hsinv, -, hfree, -, -, hnext, -⟩ := return_entity_spec hq hval hs
  refine ⟨s, hs, ?_⟩
  have hekey_len : e.key < s.entity_index.length := by
    rw [hsinv.idx_next, hnext]
    exact (hq.alive_wf e (mem_of_getElem_opt hx)).2
  rw [EntityPool.create_entity, hfree]
  simp only [List.getLast?_concat, List.dropLast_concat]
  simp only [EntityPool.createWith]
  rw [if_pos (show e.key ≠ s.entity_index.length by omega), if_pos hekey_len]
  refine ⟨_, _, _, rfl, ?_, ?_, ?_⟩
  · intro hcon
    have hgen := congrArg Entity.gen hcon
    rw [Entity.gen_from_key_and_gen] at hgen
    have hlt : (e.gen + 1) % U32 < U32 := Nat.mod_lt _ (by decide)
    rw [Nat.mod_eq_of_lt hlt] at hgen
    exact succ_mod_ne (Entity.gen_lt e) hgen
  · rw [Entity.key_from_key_and_gen]
    exact Nat.mod_eq_of_lt (Entity.key_lt e)
  · rw [Entity.gen_from_key_and_gen]
    exact Nat.mod_eq_of_lt (Nat.mod_lt _ (by decide))

theorem recycle_changes_identity_witness :
    ∃ s, EntityPool.return_entity ⟨[⟨0⟩], [], [0], 1⟩ ⟨0⟩ = some s ∧
      ∃ r2 e2 t, s.create_entity = some ((r2, e2), t) ∧
        e2 ≠ (⟨0⟩ : Entity) ∧ e2.key = Entity.key ⟨0⟩ ∧
        e2.gen = (Entity.gen ⟨0⟩ + 1) % U32 := by
  have h1 : EntityPool.new.create_entity =
      some ((0, ⟨0⟩), ⟨[⟨0⟩], [], [0], 1⟩) := by decide
  exact recycle_changes_identity Reachable.new h1

/-- C6: Dead-entity detection — after `return_entity e` the query `is_alive e`
returns `false`, and it keeps returning `false` in every later state reachable
by further `create_entity` / `return_entity` calls for as long as `e` is still
on the free stack, i.e. unless and until `e`'s key is recycled by a later
creation (which, by `recycle_changes_identity`, produces a different entity
value). -/
theorem dead_entity_detection {p : EntityPool} {e : Entity} {q : EntityPool}
    (hr : Reachable p) (he : e.val < U64) (_ha : p.is_alive e = some true)
    (hq : p.return_entity e = some q) :
    q.is_alive e = some false ∧ e ∈ q.entities_free ∧
      ∀ s, StepsFrom q s → e ∈ s.entities_free → s.is_alive e = some false := by
  have hp := reachable_inv hr
  obtain ⟨hqinv, -, hfree, -, -, -, -⟩ := return_entity_spec hp he hq
  have hmem : e ∈ q.entities_free := by
    rw [hfree]
    simp
  refine ⟨dead_of_free hqinv hmem, hmem, ?_⟩
  intro s hsteps hmem_s
  exact dead_of_free (stepsFrom_inv hqinv hsteps) hmem_s

theorem dead_entity_detection_witness :
    EntityPool.is_alive ⟨[], [⟨0⟩], [4294967295], 1⟩ ⟨0⟩ = some false ∧
    (⟨0⟩ : Entity) ∈ (⟨[], [⟨0⟩], [4294967295], 1⟩ : EntityPool).entities_free ∧
    ∀ s, StepsFrom ⟨[], [⟨0⟩], [4294967295], 1⟩ s →
      (⟨0⟩ : Entity) ∈ s.entities_free → s.is_alive ⟨0⟩ = some false := by
  have h1 : EntityPool.new.create_entity =
      some ((0, ⟨0⟩), ⟨[⟨0⟩], [], [0], 1⟩) := by decide
  have h2 : EntityPool.return_entity ⟨[⟨0⟩], [], [0], 1⟩ ⟨0⟩ =
      some ⟨[], [⟨0⟩], [4294967295], 1⟩ := by decide
  exact dead_entity_detection (Reachable.create Reachable.new h1) (by decide)
    (by decide) h2

/-- C7: `is_alive` characterization — for every reachable state and every
non-sentinel `u64` entity whose key has been issued by this pool, `is_alive`
completes and returns `true` exactly when the indirection entry for the key
holds a valid (non-sentinel) position and the generation of the dense-array
entity at that position equals the queried generation; in particular it
returns `false` whenever the indirection entry is `INVALID_INDEX`. -/
theorem is_alive_characterization {p : EntityPool} {e : Entity}
    (hr : Reachable p) (hne : e ≠ Entity.default)
    (hkey : e.key < p.entity_index.length) :
    ∃ b, p.is_alive e = some b ∧
      (b = true ↔ ∃ i, p.entity_index[e.key]? = some i ∧ i ≠ INVALID_INDEX ∧
        ∃ x, p.entities[i]? = some x ∧ x.gen = e.gen) ∧
      (p.entity_index[e.key]? = some INVALID_INDEX → p.is_alive e = some false) := by
  have hp := reachable_inv hr
  obtain ⟨i, hentry⟩ : ∃ i : Nat, p.entity_index[e.key]? = some i := by
    rw [List.getElem?_eq_getElem hkey]
    exact ⟨_, rfl⟩
  by_cases hiv : i = INVALID_INDEX
  · subst hiv
    refine ⟨false, is_alive_eq_of_invalid hne hentry, ?_,
      fun _ => is_alive_eq_of_invalid hne hentry⟩
    constructor
    · intro hcon
      exact absurd hcon (by simp)
    · rintro ⟨i', hi', hiv', -⟩
      rw [hentry, Option.some_inj] at hi'
      exact absurd hi'.symm hiv'
  · obtain ⟨x, hx, hxk⟩ := hp.indir_dense e.key i hentry hiv
    refine ⟨e.key == x.key && e.gen == x.gen,
      is_alive_eq_of_entry hne hentry hiv hx, ?_, ?_⟩
    · constructor
      · intro hb
        rw [Bool.and_eq_true, beq_iff_eq, beq_iff_eq] at hb
        exact ⟨i, hentry, hiv, x, hx, hb.2.symm⟩
      · rintro ⟨i', hi', hiv', x', hx', hg⟩
        rw [hentry, Option.some_inj] at hi'
        rw [← hi'] at hx'
        rw [hx, Option.some_inj] at hx'
        rw [Bool.and_eq_true, beq_iff_eq, beq_iff_eq]
        rw [← hx'] at hg
        exact ⟨hxk.symm, hg.symm⟩
    · intro hcon
      rw [hentry, Option.some_inj] at hcon
      exact absurd hcon hiv

theorem is_alive_characterization_witness :
    ∃ b, EntityPool.is_alive ⟨[⟨0⟩], [], [0], 1⟩ ⟨0⟩ = some b ∧
      (b = true ↔ ∃ i, (⟨[⟨0⟩], [], [0], 1⟩ : EntityPool).entity_index[Entity.key ⟨0⟩]? = some i ∧
        i ≠ INVALID_INDEX ∧
        ∃ x, (⟨[⟨0⟩], [], [0], 1⟩ : EntityPool).entities[i]? = some x ∧
          x.gen = Entity.gen ⟨0⟩) ∧
      ((⟨[⟨0⟩], [], [0], 1⟩ : EntityPool).entity_index[Entity.key ⟨0⟩]? = some INVALID_INDEX →
        EntityPool.is_alive ⟨[⟨0⟩], [], [0], 1⟩ ⟨0⟩ = some false) := by
  have h1 : EntityPool.new.create_entity =
      some ((0, ⟨0⟩), ⟨[⟨0⟩], [], [0], 1⟩) := by decide
  exact is_alive_characterization (Reachable.create Reachable.new h1)
    (by decide) (by decide)

/-- C10: Reset clears everything — after `reset()` the dense array, free stack
and indirection table are empty (`len() = 0`, `len_returned() = 0`) and the
key counter is `0`; consequently a subsequent sequence of `n` `create_entity`
calls (any `n` that fits the `u32` key space) issues the keys `0, 1, 2, …` in
order, each with generation `0`, at positions `0, 1, 2, …`. -/
theorem reset_clears_everything (p : EntityPool) {n : Nat} (hn : n < U32) :
    (p.reset).entities = [] ∧ (p.reset).entities_free = [] ∧
    (p.reset).entity_index = [] ∧ (p.reset).next_entity_key = 0 ∧
    (p.reset).len = 0 ∧ (p.reset).len_returned = 0 ∧
    ∃ rs q, (p.reset).createN n = some (rs, q) ∧
      ∀ k, k < n → ∃ e, rs[k]? = some (k, e) ∧ e.key = k ∧ e.gen = 0 := by
  refine ⟨rfl, rfl, rfl, rfl, rfl, rfl, ?_⟩
  have hreset : p.reset = EntityPool.new := rfl
  rw [hreset]
  refine ⟨_, poolAfter n, createN_new_closed (by omega), ?_⟩
  intro k hk
  refine ⟨Entity.from_key_and_gen k 0, ?_, ?_, ?_⟩
  · rw [List.getElem?_map, List.getElem?_range hk]
    rfl
  · rw [Entity.key_from_key_and_gen]
    exact Nat.mod_eq_of_lt (by omega)
  · rw [Entity.gen_from_key_and_gen]
    exact Nat.zero_mod _

theorem reset_clears_everything_witness :
    (EntityPool.reset ⟨[], [⟨0⟩], [4294967295], 1⟩).entities = [] ∧
    (EntityPool.reset ⟨[], [⟨0⟩], [4294967295], 1⟩).entities_free = [] ∧
    (EntityPool.reset ⟨[], [⟨0⟩], [4294967295], 1⟩).entity_index = [] ∧
    (EntityPool.reset ⟨[], [⟨0⟩], [4294967295], 1⟩).next_entity_key = 0 ∧
    (EntityPool.reset ⟨[], [⟨0⟩], [4294967295], 1⟩).len = 0 ∧
    (EntityPool.reset ⟨[], [⟨0⟩], [4294967295], 1⟩).len_returned = 0 ∧
    ∃ rs q, (EntityPool.reset ⟨[], [⟨0⟩], [4294967295], 1⟩).createN 2 = some (rs, q) ∧
      ∀ k, k < 2 → ∃ e, rs[k]? = some (k, e) ∧ e.key = k ∧ e.gen = 0 :=
  reset_clears_everything ⟨[], [⟨0⟩], [4294967295], 1⟩ (by decide)
